import Mathlib

/-!
Verification of the prepared-statement cache (`psycopg/psycopg/_preparing.py`)
and of the textual codecs (`psycopg3/psycopg3/types/string.py`).

Python byte strings are modelled as lists of byte values (`List Nat`), Python
unicode strings as lists of unicode scalar values.  The `OrderedDict` backing
the cache is modelled as an association list kept in insertion/touch order,
first entry oldest — exactly the order `popitem(last=False)` and
`move_to_end` observe.
-/

/-- Byte strings (`bytes` in the source): a list of byte values. -/
abbrev Bytes := List Nat

/-- Byte-string literal helper: the bytes of an ASCII string literal. -/
def bstr (s : String) : Bytes := s.data.map (fun c => c.toNat)

/-- The `Prepare` enumeration (`_preparing.py`): the decision returned by
`PrepareManager.get`. -/
inductive Prepare where
  | NO
  | YES
  | SHOULD
deriving DecidableEq, Repr

/-- The subset of `pq.ExecStatus` that the preparing module inspects, plus
representatives of the remaining statuses. -/
inductive ExecStatus where
  | EMPTY_QUERY
  | COMMAND_OK
  | TUPLES_OK
  | COPY_OUT
  | BAD_RESPONSE
  | FATAL_ERROR
deriving DecidableEq, Repr

/-- The two fields of a `PGresult` that `PrepareManager` reads: the execution
status and the (optional) command-status tag. -/
structure PGresult where
  status : ExecStatus
  command_status : Option Bytes
deriving DecidableEq, Repr

/-- The two fields of a `PostgresQuery` used to build a cache key. -/
structure PostgresQuery where
  query : Bytes
  types : List Nat
deriving DecidableEq, Repr

/-- Cache key: `(query.query, query.types)`. -/
abbrev Key := Bytes × List Nat

/-- Cache value (`Value = Union[int, bytes]`): a times-seen counter or the
name of an already prepared statement. -/
inductive Value where
  | count : Nat → Value
  | name : Bytes → Value
deriving DecidableEq, Repr

/-- Dict lookup (`d.get(k)` / `d[k]`): first binding of the key. -/
def odGet : List (Key × Value) → Key → Option Value
  | [], _ => none
  | (k', v) :: rest, k => if k' = k then some v else odGet rest k

/-- Dict assignment `d[k] = v`: an existing key keeps its position,
a new key is appended at the (most-recent) end. -/
def odSet : List (Key × Value) → Key → Value → List (Key × Value)
  | [], k, v => [(k, v)]
  | (k', v') :: rest, k, v =>
    if k' = k then (k', v) :: rest else (k', v') :: odSet rest k v

/-- Removal of a key's binding (used by `del` and by `move_to_end`). -/
def odRemove : List (Key × Value) → Key → List (Key × Value)
  | [], _ => []
  | (k', v) :: rest, k => if k' = k then rest else (k', v) :: odRemove rest k

/-- Model of `OrderedDict.move_to_end(k)`: move the binding of `k` to the
most-recent end.  The source only calls it on keys present in the dict;
an absent key leaves the dict unchanged here. -/
def odMoveToEnd (d : List (Key × Value)) (k : Key) : List (Key × Value) :=
  match odGet d k with
  | none => d
  | some v => odRemove d k ++ [(k, v)]

/-- State of `PrepareManager`.  `prepare_threshold` and `prepared_max` are
the configurable class attributes (defaults `5` and `100`); `_prepared` is
the `OrderedDict` and `_prepared_idx` the name counter. -/
structure PrepareManager where
  prepare_threshold : Option Nat
  prepared_max : Nat
  _prepared : List (Key × Value)
  _prepared_idx : Nat
deriving DecidableEq, Repr

/-- A freshly constructed manager (`__init__` with the given class-attribute
configuration; the source defaults are threshold `some 5`, max `100`). -/
def initManager (threshold : Option Nat) (max : Nat) : PrepareManager :=
  { prepare_threshold := threshold
    prepared_max := max
    _prepared := []
    _prepared_idx := 0 }

/-- Model of `PrepareManager.key`. -/
def PrepareManager.key (query : PostgresQuery) : Key :=
  (query.query, query.types)

/-- Decimal rendering of a natural number as ASCII digit bytes, with an
explicit fuel argument (structural recursion; `n / 10 < n` for `n ≥ 10`, so
fuel `n + 1` always suffices). -/
def decReprAux : Nat → Nat → Bytes
  | 0, _ => []
  | fuel + 1, n =>
    if n < 10 then [48 + n] else decReprAux fuel (n / 10) ++ [48 + n % 10]

/-- The decimal rendering of the name-counter index (`f"{idx}"`). -/
def decRepr (n : Nat) : Bytes := decReprAux (n + 1) n

/-- Bytes of `f"_pg3_{idx}".encode()`. -/
def nameFor (idx : Nat) : Bytes := bstr "_pg3_" ++ decRepr idx

/-- Model of `PrepareManager.get`: decision for a query, returning the decision pair
and the (possibly name-counter-advanced) manager. -/
def PrepareManager.get (m : PrepareManager) (query : PostgresQuery)
    (prepare : Option Bool) : (Prepare × Bytes) × PrepareManager :=
  if prepare = some false ∨ m.prepare_threshold = none then
    ((Prepare.NO, bstr ""), m)
  else
    let k := PrepareManager.key query
    match (odGet m._prepared k).getD (Value.count 0) with
    | Value.name n => ((Prepare.YES, n), m)
    | Value.count c =>
      -- `value >= self.prepare_threshold`: this branch is reached only when
      -- the threshold is not `None`, so `getD` reads the wrapped value.
      if c ≥ m.prepare_threshold.getD 0 ∨ prepare = some true then
        ((Prepare.SHOULD, nameFor m._prepared_idx),
          { m with _prepared_idx := m._prepared_idx + 1 })
      else
        ((Prepare.NO, bstr ""), m)

/-- Model of `PrepareManager.clear`: wipe the cache and the name counter, returning
`DEALLOCATE ALL`, but only when some name was generated since the last
wipe (`self._prepared_idx` truthy). -/
def PrepareManager.clear (m : PrepareManager) : Option Bytes × PrepareManager :=
  if m._prepared_idx ≠ 0 then
    (some (bstr "DEALLOCATE ALL"),
      { m with _prepared := [], _prepared_idx := 0 })
  else
    (none, m)

/-- The per-result test in `_should_discard`'s loop: a successful command
whose command-status tag starts with `b"DROP "` or equals `b"ROLLBACK"`
(the `cmdstat and (...)` guard also requires the tag truthy, i.e.
present and non-empty). -/
def isInvalidating (r : PGresult) : Bool :=
  decide (r.status = ExecStatus.COMMAND_OK) &&
    (match r.command_status with
     | some cs =>
       decide (cs ≠ []) &&
         ((bstr "DROP ").isPrefixOf cs || decide (cs = bstr "ROLLBACK"))
     | none => false)

/-- Model of `PrepareManager._should_discard`: on rollback or dropped objects, discard
the whole state.  The source loop returns `self.clear()` at the first
invalidating result, so it fires exactly when some result is invalidating. -/
def PrepareManager._should_discard (m : PrepareManager) (prep : Prepare)
    (results : List PGresult) : Option Bytes × PrepareManager :=
  if ¬m._prepared.isEmpty ∨ prep = Prepare.SHOULD then
    if results.any isInvalidating then m.clear else (none, m)
  else
    (none, m)

/-- Model of `PrepareManager._check_results`: `False` for multi-statement results or
statuses other than `COMMAND_OK`/`TUPLES_OK`. -/
def PrepareManager._check_results : List PGresult → Bool
  | [r] =>
    !(decide (ExecStatus.COMMAND_OK ≠ r.status) &&
      decide (r.status ≠ ExecStatus.TUPLES_OK))
  | _ => false

/-- Model of `PrepareManager._rotate`: evict the oldest entry once the cache exceeds
`prepared_max`, deallocating it if it had been prepared.  `popitem(last=False)`
removes the front (least recently touched) binding. -/
def PrepareManager._rotate (m : PrepareManager) : Option Bytes × PrepareManager :=
  if m._prepared.length ≤ m.prepared_max then
    (none, m)
  else
    match m._prepared with
    | [] => (none, m)
    | (_, old_val) :: rest =>
      match old_val with
      | Value.name n => (some (bstr "DEALLOCATE " ++ n), { m with _prepared := rest })
      | Value.count _ => (none, { m with _prepared := rest })

/-- Model of `PrepareManager.maybe_add_to_cache`: commit a decision to the cache
(pipeline mode), returning the key when a new entry was inserted. -/
def PrepareManager.maybe_add_to_cache (m : PrepareManager)
    (query : PostgresQuery) (prep : Prepare) (name : Bytes) :
    Option Key × PrepareManager :=
  match m.prepare_threshold with
  | none => (none, m)
  | some _ =>
    let k := PrepareManager.key query
    match odGet m._prepared k with
    | some v =>
      let d1 :=
        match v with
        | Value.count c =>
          if prep = Prepare.SHOULD then odSet m._prepared k (Value.name name)
          else odSet m._prepared k (Value.count (c + 1))
        | Value.name _ => m._prepared
      (none, { m with _prepared := odMoveToEnd d1 k })
    | none =>
      let v : Value := if prep = Prepare.SHOULD then Value.name name else Value.count 1
      (some k, { m with _prepared := m._prepared ++ [(k, v)] })

/-- Model of `del d[k]`: `none` models the `KeyError` raised on an absent key. -/
def odDel (d : List (Key × Value)) (k : Key) : Option (List (Key × Value)) :=
  match odGet d k with
  | none => none
  | some _ => some (odRemove d k)

/-- Model of `PrepareManager.validate` (pipeline mode): discard-check, then result
check (deleting the tentative entry — which raises `KeyError`, the
`.error` case, if the key is absent), then rotation. -/
def PrepareManager.validate (m : PrepareManager) (k : Key) (prep : Prepare)
    (_name : Bytes) (results : List PGresult) :
    Except Unit (Option Bytes × PrepareManager) :=
  let r1 := m._should_discard prep results
  match r1.1 with
  | some c => .ok (some c, r1.2)
  | none =>
    if PrepareManager._check_results results then
      .ok (r1.2)._rotate
    else
      match odDel (r1.2)._prepared k with
      | some d => .ok (none, { r1.2 with _prepared := d })
      | none => .error ()

/-- One pipeline round for a query: the decision returned by `get` is
committed with `maybe_add_to_cache` before the next call (the protocol of
the promotion claim). -/
def roundStep (q : PostgresQuery) (m : PrepareManager) : PrepareManager :=
  let r := m.get q none
  (r.2.maybe_add_to_cache q r.1.1 r.1.2).2

/-- Codecs for byte arrays (`string.py`): `BytesBinaryDumper.dump` is
`return obj`. -/
def BytesBinaryDumper.dump (obj : Bytes) : Bytes := obj

/-- Model of `ByteaBinaryLoader.load`: it is `return data`. -/
def ByteaBinaryLoader.load (data : Bytes) : Bytes := data

/-! ## Claim C9 -/

/-- C9: binary-format byte-array encode followed by binary-format decode is
the identity on every byte sequence, both directions being passthroughs. -/
theorem bytea_binary_roundtrip (b : Bytes) :
    ByteaBinaryLoader.load (BytesBinaryDumper.dump b) = b := rfl

/-! ## Claim C7 -/

/-- C7: `clear` returns the `DEALLOCATE ALL` directive exactly when a
statement name had been issued since the last wipe (`_prepared_idx ≠ 0`),
returns nothing (and leaves the state unchanged) otherwise, and a second
consecutive `clear` always returns nothing. -/
theorem clear_deallocates_once (m : PrepareManager) :
    (m._prepared_idx = 0 → m.clear = (none, m)) ∧
    (m._prepared_idx ≠ 0 →
      m.clear = (some (bstr "DEALLOCATE ALL"),
        { m with _prepared := [], _prepared_idx := 0 })) ∧
    ((m.clear.2).clear).1 = none := by
  by_cases h : m._prepared_idx = 0 <;>
    simp [PrepareManager.clear, h]

/-- C7 witness: a manager with three issued names deallocates on the first
`clear` and stays silent on the second. -/
theorem clear_deallocates_once_witness :
    (⟨some 5, 100, [], 3⟩ : PrepareManager).clear =
      (some (bstr "DEALLOCATE ALL"), ⟨some 5, 100, [], 0⟩) ∧
    (((⟨some 5, 100, [], 3⟩ : PrepareManager).clear.2).clear).1 = none := by
  refine ⟨?_, (clear_deallocates_once ⟨some 5, 100, [], 3⟩).2.2⟩
  exact (clear_deallocates_once ⟨some 5, 100, [], 3⟩).2.1 (by decide)

/-! ## Claim C1 -/

/-- C1 counterexample: with the default promotion threshold `t = 5` and each
decision recorded before the next call, the claim says the `t`-th call
returns `Prepare.SHOULD`; in fact the fifth call still returns the Skip
decision `Prepare.NO` (the count recorded so far is `4 < 5`). -/
theorem prepare_fifth_call_skips :
    ((((roundStep ⟨bstr "q1", []⟩)^[4]) (initManager (some 5) 100)).get
        ⟨bstr "q1", []⟩ none).1 = (Prepare.NO, bstr "") ∧
      Prepare.NO ≠ Prepare.SHOULD := by decide

/-- Below the threshold, each get-then-record round for a single fresh
fingerprint just increments the recorded count. -/
theorem roundStep_below_threshold (t mx idx : Nat) (q : PostgresQuery) :
    ∀ i, 1 ≤ i → i ≤ t →
    ((roundStep q)^[i]) (⟨some t, mx, [], idx⟩ : PrepareManager) =
      ⟨some t, mx, [(PrepareManager.key q, Value.count i)], idx⟩ := by
  intro i
  induction i with
  | zero => omega
  | succ n ih =>
    intro _ hle
    cases Nat.eq_zero_or_pos n with
    | inl h0 =>
      subst h0
      have ht : ¬ (0 ≥ t) := by omega
      simp [roundStep, PrepareManager.get, PrepareManager.maybe_add_to_cache,
        odGet, odSet, odRemove, odMoveToEnd, PrepareManager.key, ht, Option.getD]
    | inr hpos =>
      rw [Function.iterate_succ_apply', ih hpos (by omega)]
      have ht : ¬ (n ≥ t) := by omega
      simp [roundStep, PrepareManager.get, PrepareManager.maybe_add_to_cache,
        odGet, odSet, odRemove, odMoveToEnd, PrepareManager.key, ht, Option.getD]

/-- The round that runs once the count has reached the threshold promotes
the entry to the freshly generated name. -/
theorem roundStep_promotes (t mx : Nat) (q : PostgresQuery) :
    ((roundStep q)^[t + 1]) (⟨some t, mx, [], 0⟩ : PrepareManager) =
      ⟨some t, mx, [(PrepareManager.key q, Value.name (nameFor 0))], 1⟩ := by
  cases Nat.eq_zero_or_pos t with
  | inl h0 =>
    subst h0
    simp [roundStep, PrepareManager.get, PrepareManager.maybe_add_to_cache,
      odGet, odSet, odRemove, odMoveToEnd, PrepareManager.key, Option.getD]
  | inr hpos =>
    rw [Function.iterate_succ_apply', roundStep_below_threshold t mx 0 q t hpos le_rfl]
    simp [roundStep, PrepareManager.get, PrepareManager.maybe_add_to_cache,
      odGet, odSet, odRemove, odMoveToEnd, PrepareManager.key, Option.getD]

/-- A cache whose only entry is already named is a fixed point of the
get-then-record round. -/
theorem roundStep_named_fixed (t mx idx : Nat) (n : Bytes) (q : PostgresQuery) :
    roundStep q
      (⟨some t, mx, [(PrepareManager.key q, Value.name n)], idx⟩ : PrepareManager) =
      ⟨some t, mx, [(PrepareManager.key q, Value.name n)], idx⟩ := by
  simp [roundStep, PrepareManager.get, PrepareManager.maybe_add_to_cache,
    odGet, odSet, odRemove, odMoveToEnd, PrepareManager.key, Option.getD]

/-- C1 (amended): with promotion threshold `t` and every decision recorded
with `maybe_add_to_cache` before the next call, the first `t` calls to
`get` for a fresh fingerprint return the Skip decision (`Prepare.NO`), the
`(t+1)`-th call returns `Prepare.SHOULD` with a fresh name, and once that
outcome is committed every subsequent call returns `Prepare.YES` with the
same name.  (The claim as frozen says the `t`-th call already promotes;
the counterexample shows it still skips.) -/
theorem prepare_promotion_after_threshold (t mx : Nat) (q : PostgresQuery) :
    (∀ i, i < t →
      ((((roundStep q)^[i]) (initManager (some t) mx)).get q none).1 =
        (Prepare.NO, bstr "")) ∧
    (((((roundStep q)^[t]) (initManager (some t) mx)).get q none).1 =
      (Prepare.SHOULD, nameFor 0)) ∧
    (∀ j, ((((roundStep q)^[t + 1 + j]) (initManager (some t) mx)).get q none).1 =
      (Prepare.YES, nameFor 0)) := by
  have hinit : (initManager (some t) mx) = (⟨some t, mx, [], 0⟩ : PrepareManager) := rfl
  refine ⟨?_, ?_, ?_⟩
  · intro i hi
    cases Nat.eq_zero_or_pos i with
    | inl h0 =>
      subst h0
      have ht : ¬ (0 ≥ t) := by omega
      simp [initManager, PrepareManager.get, odGet, PrepareManager.key, ht, Option.getD]
    | inr hpos =>
      rw [hinit, roundStep_below_threshold t mx 0 q i hpos (by omega)]
      have ht : ¬ (i ≥ t) := by omega
      simp [PrepareManager.get, odGet, PrepareManager.key, ht, Option.getD]
  · cases Nat.eq_zero_or_pos t with
    | inl h0 =>
      subst h0
      simp [initManager, PrepareManager.get, odGet, PrepareManager.key, Option.getD]
    | inr hpos =>
      rw [hinit, roundStep_below_threshold t mx 0 q t hpos le_rfl]
      simp [PrepareManager.get, odGet, PrepareManager.key, Option.getD]
  · have hfix : ∀ j', ((roundStep q)^[t + 1 + j']) (initManager (some t) mx) =
        ⟨some t, mx, [(PrepareManager.key q, Value.name (nameFor 0))], 1⟩ := by
      intro j'
      induction j' with
      | zero => exact roundStep_promotes t mx q
      | succ jj ihj =>
        have harith : t + 1 + (jj + 1) = (t + 1 + jj) + 1 := by omega
        rw [harith, Function.iterate_succ_apply', ihj, roundStep_named_fixed]
    intro j
    rw [hfix j]
    simp [PrepareManager.get, odGet, PrepareManager.key, Option.getD]

/-- C1 witness: threshold `5`, third call skips, sixth call promotes with
name `_pg3_0`, eighth call reuses the name. -/
theorem prepare_promotion_after_threshold_witness :
    ((((roundStep ⟨bstr "q1", []⟩)^[2]) (initManager (some 5) 100)).get
        ⟨bstr "q1", []⟩ none).1 = (Prepare.NO, bstr "") ∧
    ((((roundStep ⟨bstr "q1", []⟩)^[5]) (initManager (some 5) 100)).get
        ⟨bstr "q1", []⟩ none).1 = (Prepare.SHOULD, nameFor 0) ∧
    ((((roundStep ⟨bstr "q1", []⟩)^[7]) (initManager (some 5) 100)).get
        ⟨bstr "q1", []⟩ none).1 = (Prepare.YES, nameFor 0) :=
  ⟨(prepare_promotion_after_threshold 5 100 ⟨bstr "q1", []⟩).1 2 (by decide),
   (prepare_promotion_after_threshold 5 100 ⟨bstr "q1", []⟩).2.1,
   (prepare_promotion_after_threshold 5 100 ⟨bstr "q1", []⟩).2.2 1⟩

/-! ## Claim C2 -/

/-- C2 counterexample: with configured maximum `prepared_max = 1`, two
`maybe_add_to_cache` calls whose matching `validate`s have not yet run
leave the cache with 2 entries, exceeding the configured maximum. -/
theorem cache_bound_transient_excess :
    ((((initManager (some 5) 1).maybe_add_to_cache ⟨bstr "q1", []⟩
          Prepare.NO (bstr "")).2.maybe_add_to_cache ⟨bstr "q2", []⟩
          Prepare.NO (bstr "")).2)._prepared.length = 2 ∧
      ¬ (2 ≤ (initManager (some 5) 1).prepared_max) := by decide

/-- Removing a present key shortens the dict by one. -/
theorem odRemove_length_of_mem (d : List (Key × Value)) (k : Key)
    (h : (odGet d k).isSome) : (odRemove d k).length + 1 = d.length := by
  induction d with
  | nil => simp [odGet] at h
  | cons kv rest ih =>
    by_cases hk : kv.1 = k
    · simp [odRemove, hk]
    · simp only [odGet, hk, if_false] at h
      have := ih h
      simp [odRemove, hk]
      omega

/-- Setting a present key keeps the dict length. -/
theorem odSet_length_of_mem (d : List (Key × Value)) (k : Key) (v : Value)
    (h : (odGet d k).isSome) : (odSet d k v).length = d.length := by
  induction d with
  | nil => simp [odGet] at h
  | cons kv rest ih =>
    by_cases hk : kv.1 = k
    · simp [odSet, hk]
    · simp only [odGet, hk, if_false] at h
      simp [odSet, hk, ih h]

/-- Lookup after assignment finds the assigned value. -/
theorem odGet_odSet_self (d : List (Key × Value)) (k : Key) (v : Value) :
    odGet (odSet d k v) k = some v := by
  induction d with
  | nil => simp [odSet, odGet]
  | cons kv rest ih =>
    by_cases hk : kv.1 = k
    · simp [odSet, odGet, hk]
    · simp [odSet, odGet, hk, ih]

/-- Moving a present key keeps the dict length. -/
theorem odMoveToEnd_length_of_mem (d : List (Key × Value)) (k : Key)
    (h : (odGet d k).isSome) : (odMoveToEnd d k).length = d.length := by
  cases hg : odGet d k with
  | none => rw [hg] at h; simp at h
  | some v =>
    have := odRemove_length_of_mem d k h
    simp only [odMoveToEnd, hg, List.length_append, List.length_cons,
      List.length_nil]
    omega

/-- A `maybe_add_to_cache` call grows the cache by at most one entry. -/
theorem maybe_add_length_le (m : PrepareManager) (q : PostgresQuery)
    (prep : Prepare) (nm : Bytes) :
    ((m.maybe_add_to_cache q prep nm).2)._prepared.length ≤
      m._prepared.length + 1 := by
  unfold PrepareManager.maybe_add_to_cache
  cases hth : m.prepare_threshold with
  | none => simp
  | some t =>
    cases hg : odGet m._prepared (PrepareManager.key q) with
    | none => simp [hg]
    | some v =>
      have hs : (odGet m._prepared (PrepareManager.key q)).isSome := by
        rw [hg]; rfl
      cases v with
      | count c =>
        by_cases hp : prep = Prepare.SHOULD <;>
        · simp only [hg, hp]
          simp only [if_true, if_false, reduceIte]
          rw [odMoveToEnd_length_of_mem _ _ (by rw [odGet_odSet_self]; rfl),
            odSet_length_of_mem _ _ _ hs]
          omega
      | name n =>
        simp only [hg]
        rw [odMoveToEnd_length_of_mem _ _ hs]
        omega

/-- A `maybe_add_to_cache` call leaves the configuration fields unchanged. -/
theorem maybe_add_preserves_config (m : PrepareManager) (q : PostgresQuery)
    (prep : Prepare) (nm : Bytes) :
    ((m.maybe_add_to_cache q prep nm).2).prepare_threshold = m.prepare_threshold ∧
    ((m.maybe_add_to_cache q prep nm).2).prepared_max = m.prepared_max := by
  unfold PrepareManager.maybe_add_to_cache
  cases hth : m.prepare_threshold with
  | none => simp [hth]
  | some t =>
    cases hg : odGet m._prepared (PrepareManager.key q) with
    | none => simp [hg]
    | some v => simp [hg]

/-- The discard check `_should_discard` either leaves the manager untouched and reports
nothing, or wipes the cache (keeping the configuration). -/
theorem should_discard_cases (m : PrepareManager) (prep : Prepare)
    (results : List PGresult) :
    m._should_discard prep results = (none, m) ∨
    (((m._should_discard prep results).1).isSome ∧
      ((m._should_discard prep results).2)._prepared = [] ∧
      ((m._should_discard prep results).2).prepared_max = m.prepared_max) := by
  unfold PrepareManager._should_discard PrepareManager.clear
  by_cases h1 : ¬m._prepared = [] ∨ prep = Prepare.SHOULD
  · by_cases h2 : results.any isInvalidating
    · by_cases h3 : m._prepared_idx ≠ 0
      · right
        simp [h1, h2, h3]
      · left
        simp [h1, h2, h3]
    · left
      simp [h1, h2]
  · left
    have hemp : m._prepared = [] := by
      by_contra hne
      exact h1 (Or.inl hne)
    have hprep : prep ≠ Prepare.SHOULD := fun hp => h1 (Or.inr hp)
    simp [hemp, hprep]

/-- Rotation via `_rotate` restores the size bound as long as the excess is at most one
entry. -/
theorem rotate_bound (m : PrepareManager)
    (h : m._prepared.length ≤ m.prepared_max + 1) :
    (((m._rotate).2)._prepared.length ≤ m.prepared_max) ∧
    ((m._rotate).2).prepared_max = m.prepared_max := by
  unfold PrepareManager._rotate
  by_cases hle : m._prepared.length ≤ m.prepared_max
  · simp [hle]
  · cases hd : m._prepared with
    | nil => rw [hd] at hle; simp at hle
    | cons kv rest =>
      obtain ⟨k1, v1⟩ := kv
      rw [hd] at hle h
      rw [if_neg hle]
      cases v1 with
      | name n =>
        simp only [List.length_cons] at h
        refine ⟨?_, rfl⟩
        show rest.length ≤ m.prepared_max
        omega
      | count c =>
        simp only [List.length_cons] at h
        refine ⟨?_, rfl⟩
        show rest.length ≤ m.prepared_max
        omega

/-- Deleting a key (successfully) shortens the dict by one. -/
theorem odDel_length (d : List (Key × Value)) (k : Key)
    (d' : List (Key × Value)) (h : odDel d k = some d') :
    d'.length + 1 = d.length := by
  unfold odDel at h
  cases hg : odGet d k with
  | none => rw [hg] at h; cases h
  | some v =>
    rw [hg] at h
    have hd' := Option.some.inj h
    subst hd'
    exact odRemove_length_of_mem d k (by rw [hg]; rfl)

/-- C2 (amended): starting from a cache within the configured bound, a
`maybe_add_to_cache` may exceed `prepared_max` by at most one entry, and by
the time its matching `validate` returns the bound `≤ prepared_max` is
restored.  (The claim as frozen asserts the bound also between the two
calls; the counterexample shows a transient excess of one.) -/
theorem cache_bound_after_validate (m : PrepareManager) (q : PostgresQuery)
    (prep : Prepare) (nm : Bytes) (results : List PGresult)
    (h : m._prepared.length ≤ m.prepared_max) :
    (((m.maybe_add_to_cache q prep nm).2)._prepared.length ≤
      m.prepared_max + 1) ∧
    (∀ cmd m2,
      ((m.maybe_add_to_cache q prep nm).2).validate (PrepareManager.key q)
          prep nm results = .ok (cmd, m2) →
      m2._prepared.length ≤ m.prepared_max) := by
  have hlen1 : ((m.maybe_add_to_cache q prep nm).2)._prepared.length ≤
      m.prepared_max + 1 := by
    have := maybe_add_length_le m q prep nm
    omega
  have hmax1 : ((m.maybe_add_to_cache q prep nm).2).prepared_max =
      m.prepared_max := (maybe_add_preserves_config m q prep nm).2
  set m1 := (m.maybe_add_to_cache q prep nm).2 with hm1
  refine ⟨hlen1, ?_⟩
  intro cmd m2 hv
  unfold PrepareManager.validate at hv
  rcases should_discard_cases m1 prep results with hsd | ⟨hsome, hemp, hmaxd⟩
  · rw [hsd] at hv
    simp only at hv
    by_cases hcr : PrepareManager._check_results results
    · rw [if_pos hcr] at hv
      have hrot := rotate_bound m1 (by omega)
      have hinj := Except.ok.inj hv
      have hm2 : m2 = (m1._rotate).2 := (congrArg Prod.snd hinj).symm
      rw [hm2]
      omega
    · rw [if_neg hcr] at hv
      cases hdel : odDel m1._prepared (PrepareManager.key q) with
      | none => rw [hdel] at hv; cases hv
      | some d =>
        rw [hdel] at hv
        have hinj := Except.ok.inj hv
        have hm2 : m2 = { m1 with _prepared := d } :=
          (congrArg Prod.snd hinj).symm
        have hdl := odDel_length m1._prepared (PrepareManager.key q) d hdel
        rw [hm2]
        simp only
        omega
  · obtain ⟨c, hc⟩ := Option.isSome_iff_exists.mp hsome
    simp only at hv
    rw [hc] at hv
    have hinj := Except.ok.inj hv
    have hm2 : m2 = (m1._should_discard prep results).2 :=
      (congrArg Prod.snd hinj).symm
    rw [hm2, hemp]
    simp

/-- C2 witness: with `prepared_max = 1` and one cached entry, recording a
second fingerprint reaches 2 entries and the matching `validate` (which
rotates) restores the bound. -/
theorem cache_bound_after_validate_witness :
    (((⟨some 5, 1, [((bstr "a", []), Value.count 1)], 0⟩ :
          PrepareManager).maybe_add_to_cache ⟨bstr "b", []⟩ Prepare.NO
        (bstr "")).2)._prepared.length ≤ 2 ∧
    (⟨some 5, 1, [((bstr "b", []), Value.count 1)], 0⟩ :
        PrepareManager)._prepared.length ≤ 1 := by
  refine ⟨(cache_bound_after_validate ⟨some 5, 1, [((bstr "a", []), Value.count 1)], 0⟩
      ⟨bstr "b", []⟩ Prepare.NO (bstr "") [⟨ExecStatus.TUPLES_OK, none⟩]
      (by decide)).1, ?_⟩
  exact (cache_bound_after_validate ⟨some 5, 1, [((bstr "a", []), Value.count 1)], 0⟩
      ⟨bstr "b", []⟩ Prepare.NO (bstr "") [⟨ExecStatus.TUPLES_OK, none⟩]
      (by decide)).2 none
    ⟨some 5, 1, [((bstr "b", []), Value.count 1)], 0⟩ (by rfl)

/-! ## Claim C3 -/

/-- C3 counterexample: a reachable state with a non-empty cache but no name
ever generated (`_prepared_idx = 0`).  A `validate` observing a successful
`DROP TABLE` result then leaves the cache untouched and returns no
directive, because `clear()` is a no-op while the name counter is zero. -/
theorem discard_noop_without_names :
    ((initManager (some 5) 100).maybe_add_to_cache ⟨bstr "q1", []⟩ Prepare.NO
        (bstr "")).2 =
      ⟨some 5, 100, [((bstr "q1", []), Value.count 1)], 0⟩ ∧
    (⟨some 5, 100, [((bstr "q1", []), Value.count 1)], 0⟩ :
        PrepareManager).validate (bstr "q1", []) Prepare.NO (bstr "")
        [⟨ExecStatus.COMMAND_OK, some (bstr "DROP TABLE")⟩] =
      .ok (none, ⟨some 5, 100, [((bstr "q1", []), Value.count 1)], 0⟩) ∧
    ([((bstr "q1", []), Value.count 1)] : List (Key × Value)) ≠ [] := by
  refine ⟨by decide, ?_, by decide⟩
  rfl

/-- C3 (amended): when `validate` runs while the cache is non-empty (or the
confirmed decision was `Prepare.SHOULD`), some result is an invalidating
drop/rollback command status, and additionally a statement name has been
generated since the last wipe (`_prepared_idx ≠ 0`), the whole cache is
wiped and `DEALLOCATE ALL` is returned — for any fingerprint.  (The claim
as frozen omits the name-counter condition; the counterexample shows the
wipe does not happen while the counter is zero.) -/
theorem discard_clears_cache_with_names (m : PrepareManager) (k : Key)
    (prep : Prepare) (nm : Bytes) (results : List PGresult)
    (hcond : ¬m._prepared = [] ∨ prep = Prepare.SHOULD)
    (hidx : m._prepared_idx ≠ 0)
    (hinv : results.any isInvalidating = true) :
    m.validate k prep nm results =
      .ok (some (bstr "DEALLOCATE ALL"),
        { m with _prepared := [], _prepared_idx := 0 }) := by
  unfold PrepareManager.validate PrepareManager._should_discard
    PrepareManager.clear
  have hcond' : ¬m._prepared.isEmpty ∨ prep = Prepare.SHOULD := by
    rcases hcond with h | h
    · left; simpa using h
    · right; exact h
  rw [if_pos hcond', if_pos hinv, if_pos hidx]

/-- C3 witness: one named entry cached, counter at 1; a `ROLLBACK` result
confirmed under a different fingerprint wipes everything and returns
`DEALLOCATE ALL`. -/
theorem discard_clears_cache_with_names_witness :
    (⟨some 5, 100, [((bstr "q1", []), Value.name (bstr "_pg3_0"))], 1⟩ :
        PrepareManager).validate (bstr "q2", []) Prepare.NO (bstr "")
      [⟨ExecStatus.COMMAND_OK, some (bstr "ROLLBACK")⟩] =
    .ok (some (bstr "DEALLOCATE ALL"), ⟨some 5, 100, [], 0⟩) :=
  discard_clears_cache_with_names
    ⟨some 5, 100, [((bstr "q1", []), Value.name (bstr "_pg3_0"))], 1⟩
    (bstr "q2", []) Prepare.NO (bstr "")
    [⟨ExecStatus.COMMAND_OK, some (bstr "ROLLBACK")⟩]
    (by decide) (by decide) (by decide)

/-! ## Claim C4 -/

/-- C4 counterexample: `clear` resets the name counter, so after a wipe the
very same name `_pg3_0` is generated again — generated names are reused
across a cache wipe within one connection lifetime. -/
theorem name_reuse_after_clear :
    (((initManager (some 5) 100).get ⟨bstr "q1", []⟩ (some true)).1 =
      (Prepare.SHOULD, bstr "_pg3_0")) ∧
    ((((((initManager (some 5) 100).get ⟨bstr "q1", []⟩
          (some true)).2).clear).2).get ⟨bstr "q2", []⟩ (some true)).1 =
      (Prepare.SHOULD, bstr "_pg3_0") := by
  decide

/-- Decimal value of a digit-byte string (inverse of `decReprAux`). -/
def decVal (l : Bytes) : Nat := l.foldl (fun a d => 10 * a + (d - 48)) 0

/-- The rendering `decReprAux` round-trips through `decVal` whenever the fuel exceeds the
argument. -/
theorem decVal_decReprAux (fuel : Nat) : ∀ n, n < fuel →
    decVal (decReprAux fuel n) = n := by
  induction fuel with
  | zero => intro n h; omega
  | succ f ih =>
    intro n h
    by_cases h10 : n < 10
    · simp [decReprAux, h10, decVal]
    · have hfuel : n / 10 < f := by omega
      have hrec := ih (n / 10) hfuel
      rw [decVal] at hrec ⊢
      simp only [decReprAux, h10, if_false, reduceIte, List.foldl_append]
      rw [hrec]
      simp only [List.foldl]
      omega

/-- Distinct indices render to distinct digit strings. -/
theorem decRepr_injective : Function.Injective decRepr := by
  intro a b h
  unfold decRepr at h
  calc a = decVal (decReprAux (a + 1) a) :=
        (decVal_decReprAux (a + 1) a (by omega)).symm
    _ = decVal (decReprAux (b + 1) b) := by rw [h]
    _ = b := decVal_decReprAux (b + 1) b (by omega)

/-- Distinct indices yield distinct generated statement names. -/
theorem nameFor_injective : Function.Injective nameFor := by
  intro a b h
  unfold nameFor at h
  exact decRepr_injective (List.append_cancel_left h)

/-- One operation of a `PrepareManager` run. -/
inductive Op where
  | get : PostgresQuery → Option Bool → Op
  | add : PostgresQuery → Prepare → Bytes → Op
  | validate : Key → Prepare → Bytes → List PGresult → Op
  | clear : Op

/-- State after one operation.  A `validate` whose `del` raises leaves the
manager in the state it had when the exception was raised (the discard
check mutates nothing in that case). -/
def stepM (m : PrepareManager) : Op → PrepareManager
  | .get q pr => (m.get q pr).2
  | .add q prep nm => (m.maybe_add_to_cache q prep nm).2
  | .validate k prep nm results =>
    match m.validate k prep nm results with
    | .ok r => r.2
    | .error _ => (m._should_discard prep results).2
  | .clear => (m.clear).2

/-- Statement names generated by one operation: only a `get` that decides
`Prepare.SHOULD` generates one. -/
def stepNames (m : PrepareManager) : Op → List Bytes
  | .get q pr =>
    if (m.get q pr).1.1 = Prepare.SHOULD then [(m.get q pr).1.2] else []
  | _ => []

/-- All names generated along a run of operations. -/
def runNames : PrepareManager → List Op → List Bytes
  | _, [] => []
  | m, op :: rest => stepNames m op ++ runNames (stepM m op) rest

/-- Whether an operation wipes the cache: an explicit `clear`, or a
`validate` whose discard check fires — in both cases with a nonzero name
counter (otherwise `clear()` is a no-op and nothing is wiped). -/
def wipes (m : PrepareManager) : Op → Bool
  | .validate _ prep _ results => ((m._should_discard prep results).1).isSome
  | .clear => ((m.clear).1).isSome
  | _ => false

/-- A run in which no operation wipes the cache. -/
def wipeFree : PrepareManager → List Op → Bool
  | _, [] => true
  | m, op :: rest => !(wipes m op) && wipeFree (stepM m op) rest

/-- A `get` call either promotes — returning `SHOULD` with the name at the current
counter and advancing the counter — or returns a non-`SHOULD` decision and
leaves the manager untouched. -/
theorem get_cases (m : PrepareManager) (q : PostgresQuery) (pr : Option Bool) :
    ((m.get q pr).1.1 = Prepare.SHOULD ∧
      (m.get q pr).1.2 = nameFor m._prepared_idx ∧
      (m.get q pr).2 = { m with _prepared_idx := m._prepared_idx + 1 }) ∨
    ((m.get q pr).1.1 ≠ Prepare.SHOULD ∧ (m.get q pr).2 = m) := by
  unfold PrepareManager.get
  by_cases h1 : pr = some false ∨ m.prepare_threshold = none
  · right; simp [h1]
  · rw [if_neg h1]
    cases hg : (odGet m._prepared (PrepareManager.key q)).getD (Value.count 0) with
    | name n => right; simp [hg]
    | count c =>
      by_cases h2 : c ≥ m.prepare_threshold.getD 0 ∨ pr = some true
      · left; simp [hg, h2]
      · right; simp [hg, h2]

/-- A `maybe_add_to_cache` call never touches the name counter. -/
theorem maybe_add_preserves_idx (m : PrepareManager) (q : PostgresQuery)
    (prep : Prepare) (nm : Bytes) :
    ((m.maybe_add_to_cache q prep nm).2)._prepared_idx = m._prepared_idx := by
  unfold PrepareManager.maybe_add_to_cache
  cases hth : m.prepare_threshold with
  | none => simp [hth]
  | some t =>
    cases hg : odGet m._prepared (PrepareManager.key q) with
    | none => simp [hg]
    | some v => simp [hg]

/-- Rotation via `_rotate` never touches the name counter. -/
theorem rotate_preserves_idx (m : PrepareManager) :
    ((m._rotate).2)._prepared_idx = m._prepared_idx := by
  unfold PrepareManager._rotate
  by_cases hle : m._prepared.length ≤ m.prepared_max
  · rw [if_pos hle]
  · rw [if_neg hle]
    cases hd : m._prepared with
    | nil => rfl
    | cons kv rest =>
      obtain ⟨k1, v1⟩ := kv
      cases v1 <;> rfl

/-- A `clear` that reports nothing changed nothing. -/
theorem clear_nowipe (m : PrepareManager) (h : ((m.clear).1).isSome = false) :
    (m.clear).2 = m := by
  unfold PrepareManager.clear at *
  by_cases hidx : m._prepared_idx ≠ 0
  · rw [if_pos hidx] at h; simp at h
  · rw [if_neg hidx]

/-- A non-wiping `validate` never touches the name counter. -/
theorem stepM_validate_idx (m : PrepareManager) (k : Key) (prep : Prepare)
    (nm : Bytes) (results : List PGresult)
    (h : wipes m (Op.validate k prep nm results) = false) :
    (stepM m (Op.validate k prep nm results))._prepared_idx =
      m._prepared_idx := by
  have hnone : (m._should_discard prep results).1 = none := by
    cases hx : (m._should_discard prep results).1 with
    | none => rfl
    | some c => simp [wipes, hx] at h
  rcases should_discard_cases m prep results with hd | ⟨hsome, hrest⟩
  · simp only [stepM]
    unfold PrepareManager.validate
    rw [hd]
    simp only
    by_cases hcr : PrepareManager._check_results results
    · rw [if_pos hcr]
      exact rotate_preserves_idx m
    · rw [if_neg hcr]
      cases hdel : odDel m._prepared k with
      | some d => simp [hdel]
      | none => simp [hdel, hd]
  · rw [hnone] at hsome
    simp at hsome

/-- A non-wiping operation advances the counter by exactly the number of
names it generates, and those names are the consecutive renderings of the
counter. -/
theorem step_idx_names (m : PrepareManager) (op : Op)
    (h : wipes m op = false) :
    (stepM m op)._prepared_idx = m._prepared_idx + (stepNames m op).length ∧
    stepNames m op =
      (List.range' m._prepared_idx (stepNames m op).length).map nameFor := by
  cases op with
  | get q pr =>
    rcases get_cases m q pr with ⟨h1, h2, h3⟩ | ⟨h1, h3⟩
    · simp [stepM, stepNames, h1, h2, h3, List.range']
    · simp [stepM, stepNames, h1, h3]
  | add q prep nm =>
    simp [stepM, stepNames, maybe_add_preserves_idx]
  | validate k prep nm results =>
    refine ⟨?_, by simp [stepNames]⟩
    simp only [stepNames, List.length_nil, Nat.add_zero]
    exact stepM_validate_idx m k prep nm results h
  | clear =>
    have h2 : ((m.clear).1).isSome = false := by simpa [wipes] using h
    refine ⟨?_, by simp [stepNames]⟩
    simp only [stepM, stepNames, List.length_nil, Nat.add_zero]
    rw [clear_nowipe m h2]

/-- Gluing two blocks of consecutively-rendered names. -/
theorem map_nameFor_glue (a k j : Nat) :
    List.map nameFor (List.range' a k) ++
      List.map nameFor (List.range' (a + k) j) =
      List.map nameFor (List.range' a (k + j)) := by
  rw [← List.map_append]
  congr 1
  have hr := List.range'_append a k j 1
  rw [Nat.one_mul] at hr
  rw [Nat.add_comm k j]
  exact hr

/-- Along a wipe-free run the generated names are exactly the renderings of
the consecutive counter values starting at the initial counter. -/
theorem runNames_shape (ops : List Op) : ∀ m : PrepareManager,
    wipeFree m ops = true →
    runNames m ops =
      (List.range' m._prepared_idx (runNames m ops).length).map nameFor := by
  induction ops with
  | nil => intro m _; simp [runNames]
  | cons op rest ih =>
    intro m h
    simp only [wipeFree, Bool.and_eq_true, Bool.not_eq_true'] at h
    obtain ⟨h1, h2⟩ := h
    have hstep := step_idx_names m op h1
    have hrest := ih (stepM m op) h2
    simp only [runNames, List.length_append]
    rw [hstep.2, hrest, hstep.1]
    rw [hstep.2, hrest]
    simp only [List.length_map, List.length_range']
    exact map_nameFor_glue m._prepared_idx
      (stepNames m op).length (runNames (stepM m op) rest).length

/-- C4 (amended): along any run of operations in which no cache wipe occurs
(no `clear`/`reset` with a nonzero name counter and no `validate` whose
discard check fires), the names generated by `get` are the renderings
`_pg3_<decimal index>` of strictly increasing consecutive counter values,
and are therefore pairwise distinct.  (The claim as frozen extends this
across cache wipes; the counterexample shows a wipe resets the counter and
the very same name is generated again.) -/
theorem names_distinct_between_wipes (m : PrepareManager) (ops : List Op)
    (h : wipeFree m ops = true) :
    runNames m ops =
      (List.range' m._prepared_idx (runNames m ops).length).map nameFor ∧
    (runNames m ops).Nodup := by
  have hs := runNames_shape ops m h
  refine ⟨hs, ?_⟩
  rw [hs]
  exact List.Nodup.map nameFor_injective (List.nodup_range' _ _)

/-- C4 witness: two forced promotions in a wipe-free run generate the
distinct names `_pg3_0` and `_pg3_1`. -/
theorem names_distinct_between_wipes_witness :
    runNames (initManager (some 5) 100)
        [Op.get ⟨bstr "a", []⟩ (some true), Op.get ⟨bstr "b", []⟩ (some true)] =
      (List.range' 0
        (runNames (initManager (some 5) 100)
          [Op.get ⟨bstr "a", []⟩ (some true),
           Op.get ⟨bstr "b", []⟩ (some true)]).length).map nameFor ∧
    (runNames (initManager (some 5) 100)
        [Op.get ⟨bstr "a", []⟩ (some true),
         Op.get ⟨bstr "b", []⟩ (some true)]).Nodup :=
  names_distinct_between_wipes (initManager (some 5) 100)
    [Op.get ⟨bstr "a", []⟩ (some true), Op.get ⟨bstr "b", []⟩ (some true)]
    (by decide)

/-! ## Claim C5 -/

/-- C5 counterexample: `get` never reorders the cache.  With
`prepared_max = 2` and entries `q1` (named, oldest) and `q2`, a `get` hit
on `q1` returns `UseExisting` without touching recency; recording a third
fingerprint and validating it then evicts precisely `q1` — the entry that
was read most recently. -/
theorem get_hit_not_refreshing :
    (((⟨some 5, 2, [((bstr "q1", []), Value.name (bstr "_pg3_0")),
          ((bstr "q2", []), Value.count 1)], 1⟩ : PrepareManager).get
        ⟨bstr "q1", []⟩ none).1 = (Prepare.YES, bstr "_pg3_0")) ∧
    ((((⟨some 5, 2, [((bstr "q1", []), Value.name (bstr "_pg3_0")),
            ((bstr "q2", []), Value.count 1)], 1⟩ : PrepareManager).get
          ⟨bstr "q1", []⟩ none).2.maybe_add_to_cache ⟨bstr "q3", []⟩
        Prepare.NO (bstr "")).2.validate (bstr "q3", []) Prepare.NO (bstr "")
        [⟨ExecStatus.TUPLES_OK, none⟩] =
      .ok (some (bstr "DEALLOCATE _pg3_0"),
        ⟨some 5, 2, [((bstr "q2", []), Value.count 1),
          ((bstr "q3", []), Value.count 1)], 1⟩)) := by
  refine ⟨by decide, ?_⟩
  rfl

/-- The last binding appended for a key is always found. -/
theorem odGet_append_last_isSome (xs : List (Key × Value)) (k : Key)
    (v : Value) : (odGet (xs ++ [(k, v)]) k).isSome = true := by
  induction xs with
  | nil => simp [odGet]
  | cons kv rest ih =>
    by_cases hk : kv.1 = k <;> simp [odGet, hk, ih]

/-- A `maybe_add_to_cache` call on a fingerprint already in the cache ends with
that fingerprint as the most recent (last) binding. -/
theorem maybe_add_present_last (m : PrepareManager) (q : PostgresQuery)
    (prep : Prepare) (nm : Bytes) (hth : m.prepare_threshold ≠ none)
    (hmem : (odGet m._prepared (PrepareManager.key q)).isSome = true) :
    ∃ xs v, ((m.maybe_add_to_cache q prep nm).2)._prepared =
      xs ++ [(PrepareManager.key q, v)] := by
  unfold PrepareManager.maybe_add_to_cache
  cases hth2 : m.prepare_threshold with
  | none => exact absurd hth2 hth
  | some t =>
    cases hg : odGet m._prepared (PrepareManager.key q) with
    | none => rw [hg] at hmem; simp at hmem
    | some v =>
      cases v with
      | count c =>
        by_cases hp : prep = Prepare.SHOULD
        · refine ⟨odRemove
            (odSet m._prepared (PrepareManager.key q) (Value.name nm))
            (PrepareManager.key q), Value.name nm, ?_⟩
          simp only [hg, hp, if_true, reduceIte]
          unfold odMoveToEnd
          rw [odGet_odSet_self]
        · refine ⟨odRemove
            (odSet m._prepared (PrepareManager.key q) (Value.count (c + 1)))
            (PrepareManager.key q), Value.count (c + 1), ?_⟩
          simp only [hg, hp, if_false, reduceIte]
          unfold odMoveToEnd
          rw [odGet_odSet_self]
      | name n =>
        refine ⟨odRemove m._prepared (PrepareManager.key q), Value.name n, ?_⟩
        simp only [hg]
        unfold odMoveToEnd
        rw [hg]

/-- Rotation pops the front binding, so a key sitting at the most-recent
end survives it (given a positive configured maximum). -/
theorem rotate_keeps_last_key (m : PrepareManager) (k : Key) (v : Value)
    (xs : List (Key × Value)) (hshape : m._prepared = xs ++ [(k, v)])
    (hmax : 1 ≤ m.prepared_max) :
    (odGet (((m._rotate).2)._prepared) k).isSome = true := by
  unfold PrepareManager._rotate
  by_cases hle : m._prepared.length ≤ m.prepared_max
  · rw [if_pos hle, hshape]
    exact odGet_append_last_isSome xs k v
  · rw [if_neg hle]
    cases hxs : xs with
    | nil =>
      rw [hshape, hxs] at hle
      simp at hle
      omega
    | cons a xs' =>
      rw [hshape, hxs]
      simp only [List.cons_append]
      obtain ⟨a1, a2⟩ := a
      cases a2 <;> exact odGet_append_last_isSome xs' k v

/-- C5 (amended): recency is refreshed by `maybe_add_to_cache`, not by
`get`: a `get` call leaves the cache order untouched, while the
`maybe_add_to_cache` that follows it in the pipeline protocol moves the
touched fingerprint to the most-recent end, so the fingerprint survives
the next rotation (rotation pops the least-recently-touched front entry).
(The claim as frozen attributes the refresh to `get` itself; the
counterexample shows a plain `get` hit is evicted by the next rotation.) -/
theorem touch_survives_rotation (m : PrepareManager) (q : PostgresQuery)
    (pr : Option Bool) (prep : Prepare) (nm : Bytes)
    (hth : m.prepare_threshold ≠ none)
    (hmem : (odGet m._prepared (PrepareManager.key q)).isSome = true)
    (hmax : 1 ≤ m.prepared_max) :
    ((m.get q pr).2)._prepared = m._prepared ∧
    (∃ v, (((m.maybe_add_to_cache q prep nm).2)._prepared).getLast? =
      some (PrepareManager.key q, v)) ∧
    (odGet ((((m.maybe_add_to_cache q prep nm).2)._rotate).2)._prepared
      (PrepareManager.key q)).isSome = true := by
  obtain ⟨xs, v, hshape⟩ := maybe_add_present_last m q prep nm hth hmem
  refine ⟨?_, ⟨v, ?_⟩, ?_⟩
  · rcases get_cases m q pr with ⟨_, _, h3⟩ | ⟨_, h3⟩ <;> rw [h3]
  · rw [hshape]
    exact List.getLast?_concat _
  · refine rotate_keeps_last_key _ _ v xs hshape ?_
    rw [(maybe_add_preserves_config m q prep nm).2]
    exact hmax

/-- C5 witness: with `q1` present (and oldest) in a two-entry cache at
`prepared_max = 1`, a `get` on `q1` changes nothing, while recording `q1`
moves it to the most-recent end and the following rotation keeps it. -/
theorem touch_survives_rotation_witness :
    (((⟨some 5, 1, [((bstr "q1", []), Value.count 1),
          ((bstr "q2", []), Value.count 2)], 0⟩ : PrepareManager).get
        ⟨bstr "q1", []⟩ none).2)._prepared =
      [((bstr "q1", []), Value.count 1), ((bstr "q2", []), Value.count 2)] ∧
    (∃ v, ((((⟨some 5, 1, [((bstr "q1", []), Value.count 1),
          ((bstr "q2", []), Value.count 2)], 0⟩ :
            PrepareManager).maybe_add_to_cache ⟨bstr "q1", []⟩ Prepare.NO
          (bstr "")).2)._prepared).getLast? =
      some ((bstr "q1", []), v)) ∧
    (odGet (((((⟨some 5, 1, [((bstr "q1", []), Value.count 1),
          ((bstr "q2", []), Value.count 2)], 0⟩ :
            PrepareManager).maybe_add_to_cache ⟨bstr "q1", []⟩ Prepare.NO
          (bstr "")).2)._rotate).2)._prepared
      ((bstr "q1", []) : Key)).isSome = true :=
  touch_survives_rotation
    ⟨some 5, 1, [((bstr "q1", []), Value.count 1),
      ((bstr "q2", []), Value.count 2)], 0⟩
    ⟨bstr "q1", []⟩ none Prepare.NO (bstr "")
    (by decide) (by decide) (by decide)

/-! ## Claim C6 -/

/-- C6: a FIFO pipeline trace on which `validate` raises.  Two statements
are queued: `q1` promoted (`SHOULD`, name `_pg3_0`) and `q2` merely
counted; both are recorded before any result arrives.  Validating `q1`
against a successful `DROP TABLE` result wipes the whole cache; validating
`q2` against an unsuitable (two-element) result list then executes
`del self._prepared[key]` on the now-absent key and raises `KeyError`
(the `.error ()` outcome) instead of returning a directive or nothing. -/
theorem validate_keyerror_after_wipe :
    ((initManager (some 5) 100).get ⟨bstr "q1", []⟩ (some true)) =
      ((Prepare.SHOULD, bstr "_pg3_0"), ⟨some 5, 100, [], 1⟩) ∧
    ((⟨some 5, 100, [], 1⟩ : PrepareManager).maybe_add_to_cache
        ⟨bstr "q1", []⟩ Prepare.SHOULD (bstr "_pg3_0")) =
      (some (bstr "q1", []),
        ⟨some 5, 100, [((bstr "q1", []), Value.name (bstr "_pg3_0"))], 1⟩) ∧
    ((⟨some 5, 100, [((bstr "q1", []), Value.name (bstr "_pg3_0"))], 1⟩ :
        PrepareManager).maybe_add_to_cache ⟨bstr "q2", []⟩ Prepare.NO
        (bstr "")) =
      (some (bstr "q2", []),
        ⟨some 5, 100, [((bstr "q1", []), Value.name (bstr "_pg3_0")),
          ((bstr "q2", []), Value.count 1)], 1⟩) ∧
    ((⟨some 5, 100, [((bstr "q1", []), Value.name (bstr "_pg3_0")),
          ((bstr "q2", []), Value.count 1)], 1⟩ : PrepareManager).validate
        (bstr "q1", []) Prepare.SHOULD (bstr "_pg3_0")
        [⟨ExecStatus.COMMAND_OK, some (bstr "DROP TABLE")⟩]) =
      .ok (some (bstr "DEALLOCATE ALL"), ⟨some 5, 100, [], 0⟩) ∧
    ((⟨some 5, 100, [], 0⟩ : PrepareManager).validate (bstr "q2", [])
        Prepare.NO (bstr "")
        [⟨ExecStatus.TUPLES_OK, none⟩, ⟨ExecStatus.TUPLES_OK, none⟩]) =
      .error () := by
  refine ⟨by decide, by decide, by decide, ?_, ?_⟩ <;> rfl

/-! ## Textual codecs (`psycopg3/psycopg3/types/string.py`) -/

/-- Python unicode strings: lists of unicode scalar values. -/
abbrev Str := List Nat

/-- Validity of one code point (what a well-formed `str` element can be:
below the surrogate range, or between the surrogates and `0x10FFFF`). -/
def validCp (c : Nat) : Prop := c < 0xD800 ∨ (0xE000 ≤ c ∧ c < 0x110000)

/-- A well-formed string: every code point valid. -/
def ValidStr (s : Str) : Prop := ∀ c ∈ s, validCp c

instance (c : Nat) : Decidable (validCp c) := by
  unfold validCp
  infer_instance

instance (s : Str) : Decidable (ValidStr s) := by
  unfold ValidStr
  exact List.decidableBAll _ s

/-- UTF-8 encoding of one code point (the byte layout produced by CPython's
`str.encode("utf-8")`, written with division and remainder). -/
def utf8EncodeChar (c : Nat) : Bytes :=
  if c < 0x80 then [c]
  else if c < 0x800 then [0xC0 + c / 0x40, 0x80 + c % 0x40]
  else if c < 0x10000 then
    [0xE0 + c / 0x1000, 0x80 + c / 0x40 % 0x40, 0x80 + c % 0x40]
  else
    [0xF0 + c / 0x40000, 0x80 + c / 0x1000 % 0x40, 0x80 + c / 0x40 % 0x40,
      0x80 + c % 0x40]

/-- UTF-8 encoding of a string. -/
def utf8Encode (s : Str) : Bytes := (s.map utf8EncodeChar).flatten

/-- Strict UTF-8 decoding (CPython's `bytes.decode("utf-8")`): rejects
stray continuation bytes, truncated and overlong sequences, surrogates and
out-of-range code points.  The fuel argument makes the recursion
structural; every decoded character consumes at least one byte, so fuel
equal to the byte length always suffices. -/
def utf8DecodeAux : Nat → Bytes → Option Str
  | _, [] => some []
  | 0, _ :: _ => none
  | fuel + 1, b :: rest =>
    if b < 0x80 then (utf8DecodeAux fuel rest).map (fun s => b :: s)
    else if b < 0xC0 then none
    else if b < 0xE0 then
      match rest with
      | b2 :: rest2 =>
        if 0x80 ≤ b2 ∧ b2 < 0xC0 then
          let c := (b - 0xC0) * 0x40 + (b2 - 0x80)
          if 0x80 ≤ c then (utf8DecodeAux fuel rest2).map (fun s => c :: s)
          else none
        else none
      | [] => none
    else if b < 0xF0 then
      match rest with
      | b2 :: b3 :: rest3 =>
        if (0x80 ≤ b2 ∧ b2 < 0xC0) ∧ (0x80 ≤ b3 ∧ b3 < 0xC0) then
          let c := (b - 0xE0) * 0x1000 + (b2 - 0x80) * 0x40 + (b3 - 0x80)
          if 0x800 ≤ c ∧ (c < 0xD800 ∨ 0xE000 ≤ c) then
            (utf8DecodeAux fuel rest3).map (fun s => c :: s)
          else none
        else none
      | _ => none
    else if b < 0xF8 then
      match rest with
      | b2 :: b3 :: b4 :: rest4 =>
        if (0x80 ≤ b2 ∧ b2 < 0xC0) ∧ (0x80 ≤ b3 ∧ b3 < 0xC0) ∧
            (0x80 ≤ b4 ∧ b4 < 0xC0) then
          let c := (b - 0xF0) * 0x40000 + (b2 - 0x80) * 0x1000 +
            (b3 - 0x80) * 0x40 + (b4 - 0x80)
          if 0x10000 ≤ c ∧ c < 0x110000 then
            (utf8DecodeAux fuel rest4).map (fun s => c :: s)
          else none
        else none
      | _ => none
    else none

/-- Strict UTF-8 decoding of a byte string. -/
def utf8Decode (l : Bytes) : Option Str := utf8DecodeAux l.length l

/-- Unfolding `utf8Encode` on a cons. -/
theorem utf8Encode_cons (c : Nat) (s : Str) :
    utf8Encode (c :: s) = utf8EncodeChar c ++ utf8Encode s := by
  simp [utf8Encode]

/-- Every character occupies at least one byte. -/
theorem utf8EncodeChar_length_pos (c : Nat) :
    1 ≤ (utf8EncodeChar c).length := by
  unfold utf8EncodeChar
  split_ifs <;> simp

/-- The byte length dominates the character count. -/
theorem utf8Encode_length_ge (s : Str) : s.length ≤ (utf8Encode s).length := by
  induction s with
  | nil => simp [utf8Encode]
  | cons c s' ih =>
    rw [utf8Encode_cons]
    have := utf8EncodeChar_length_pos c
    simp only [List.length_cons, List.length_append]
    omega

/-- Decoding after encoding one valid code point peels off exactly that
code point. -/
theorem utf8DecodeAux_encodeChar (f : Nat) (c : Nat) (hc : validCp c)
    (rest : Bytes) :
    utf8DecodeAux (f + 1) (utf8EncodeChar c ++ rest) =
      (utf8DecodeAux f rest).map (fun s => c :: s) := by
  by_cases h1 : c < 0x80
  · have henc : utf8EncodeChar c = [c] := by simp [utf8EncodeChar, h1]
    rw [henc]
    simp only [List.cons_append, List.nil_append]
    simp [utf8DecodeAux, h1]
  · by_cases h2 : c < 0x800
    · have henc : utf8EncodeChar c = [0xC0 + c / 0x40, 0x80 + c % 0x40] := by
        simp [utf8EncodeChar, h1, h2]
      rw [henc]
      simp only [List.cons_append, List.nil_append]
      have hb1a : ¬ (0xC0 + c / 0x40 < 0x80) := by omega
      have hb1b : ¬ (0xC0 + c / 0x40 < 0xC0) := by omega
      have hb1c : 0xC0 + c / 0x40 < 0xE0 := by omega
      have hb2 : 0x80 ≤ 0x80 + c % 0x40 ∧ 0x80 + c % 0x40 < 0xC0 := by omega
      have hval : (0xC0 + c / 0x40 - 0xC0) * 0x40 + (0x80 + c % 0x40 - 0x80) =
          c := by omega
      have hge : 0x80 ≤ c := by omega
      simp only [utf8DecodeAux, if_neg hb1a, if_neg hb1b, if_pos hb1c,
        if_pos hb2, hval, if_pos hge]
    · by_cases h3 : c < 0x10000
      · have henc : utf8EncodeChar c =
            [0xE0 + c / 0x1000, 0x80 + c / 0x40 % 0x40, 0x80 + c % 0x40] := by
          simp [utf8EncodeChar, h1, h2, h3]
        rw [henc]
        simp only [List.cons_append, List.nil_append]
        have hb1a : ¬ (0xE0 + c / 0x1000 < 0x80) := by omega
        have hb1b : ¬ (0xE0 + c / 0x1000 < 0xC0) := by omega
        have hb1c : ¬ (0xE0 + c / 0x1000 < 0xE0) := by omega
        have hb1d : 0xE0 + c / 0x1000 < 0xF0 := by omega
        have hb23 : (0x80 ≤ 0x80 + c / 0x40 % 0x40 ∧
            0x80 + c / 0x40 % 0x40 < 0xC0) ∧
            (0x80 ≤ 0x80 + c % 0x40 ∧ 0x80 + c % 0x40 < 0xC0) := by omega
        have hval : (0xE0 + c / 0x1000 - 0xE0) * 0x1000 +
            (0x80 + c / 0x40 % 0x40 - 0x80) * 0x40 +
            (0x80 + c % 0x40 - 0x80) = c := by omega
        have hok : 0x800 ≤ c ∧ (c < 0xD800 ∨ 0xE000 ≤ c) := by
          rcases hc with h | ⟨h, _⟩
          · exact ⟨by omega, Or.inl h⟩
          · exact ⟨by omega, Or.inr h⟩
        simp only [utf8DecodeAux, if_neg hb1a, if_neg hb1b, if_neg hb1c,
          if_pos hb1d, if_pos hb23, hval, if_pos hok]
      · have h4 : c < 0x110000 := by
          rcases hc with h | ⟨_, h⟩
          · omega
          · exact h
        have henc : utf8EncodeChar c =
            [0xF0 + c / 0x40000, 0x80 + c / 0x1000 % 0x40,
              0x80 + c / 0x40 % 0x40, 0x80 + c % 0x40] := by
          simp [utf8EncodeChar, h1, h2, h3]
        rw [henc]
        simp only [List.cons_append, List.nil_append]
        have hb1a : ¬ (0xF0 + c / 0x40000 < 0x80) := by omega
        have hb1b : ¬ (0xF0 + c / 0x40000 < 0xC0) := by omega
        have hb1c : ¬ (0xF0 + c / 0x40000 < 0xE0) := by omega
        have hb1d : ¬ (0xF0 + c / 0x40000 < 0xF0) := by omega
        have hb1e : 0xF0 + c / 0x40000 < 0xF8 := by omega
        have hb234 : (0x80 ≤ 0x80 + c / 0x1000 % 0x40 ∧
            0x80 + c / 0x1000 % 0x40 < 0xC0) ∧
            (0x80 ≤ 0x80 + c / 0x40 % 0x40 ∧ 0x80 + c / 0x40 % 0x40 < 0xC0) ∧
            (0x80 ≤ 0x80 + c % 0x40 ∧ 0x80 + c % 0x40 < 0xC0) := by omega
        have hval : (0xF0 + c / 0x40000 - 0xF0) * 0x40000 +
            (0x80 + c / 0x1000 % 0x40 - 0x80) * 0x1000 +
            (0x80 + c / 0x40 % 0x40 - 0x80) * 0x40 +
            (0x80 + c % 0x40 - 0x80) = c := by omega
        have hok : 0x10000 ≤ c ∧ c < 0x110000 := ⟨by omega, h4⟩
        simp only [utf8DecodeAux, if_neg hb1a, if_neg hb1b, if_neg hb1c,
          if_neg hb1d, if_pos hb1e, if_pos hb234, hval, if_pos hok]

/-- With sufficient fuel (one unit per character), decoding inverts
encoding on well-formed strings. -/
theorem utf8DecodeAux_encode (fuel : Nat) : ∀ s : Str, s.length ≤ fuel →
    ValidStr s → utf8DecodeAux fuel (utf8Encode s) = some s := by
  induction fuel with
  | zero =>
    intro s h _
    cases s with
    | nil => simp [utf8Encode, utf8DecodeAux]
    | cons c s' => simp at h
  | succ f ih =>
    intro s h hv
    cases s with
    | nil => simp [utf8Encode, utf8DecodeAux]
    | cons c s' =>
      have hc : validCp c := hv c (by simp)
      have hv' : ValidStr s' := fun x hx => hv x (by simp [hx])
      have hs' : s'.length ≤ f := by
        simp only [List.length_cons] at h
        omega
      rw [utf8Encode_cons, utf8DecodeAux_encodeChar f c hc, ih s' hs' hv']
      rfl

/-- Strict UTF-8 decoding inverts UTF-8 encoding on well-formed strings. -/
theorem utf8Decode_encode (s : Str) (hv : ValidStr s) :
    utf8Decode (utf8Encode s) = some s := by
  unfold utf8Decode
  have hlen := utf8Encode_length_ge s
  -- fuel is the byte length, which dominates the character count
  have hfuel : s.length ≤ (utf8Encode s).length := hlen
  exact utf8DecodeAux_encode (utf8Encode s).length s hfuel hv

/-- Errors raised by the dumpers: psycopg's `DataError` for NUL in a
text-format string, and the Python codec's encoding error. -/
inductive DumpError where
  | dataError
  | codecError
deriving DecidableEq, Repr

/-- Effective encoding chosen in `_StrDumper.__init__`: the class default
is `utf-8`; a connection's `client_encoding` overrides it unless it is the
`ascii` sentinel, which keeps the default. -/
def strDumperEncoding (conn : Option String) : String :=
  match conn with
  | none => "utf-8"
  | some enc => if enc ≠ "ascii" then enc else "utf-8"

/-- Model of `str.encode(encoding)` for the encodings these claims exercise: strict
UTF-8 and strict ASCII; other codecs are outside the model. -/
def encodeStr (enc : String) (s : Str) : Option Bytes :=
  if enc = "utf-8" then some (utf8Encode s)
  else if enc = "ascii" then
    (if s.all (fun c => c < 0x80) then some s else none)
  else none

/-- Model of `StrDumper.dump` (text format): raise `DataError` on an embedded NUL,
otherwise encode with the effective encoding. -/
def StrDumper.dump (conn : Option String) (obj : Str) :
    Except DumpError Bytes :=
  if 0 ∈ obj then .error .dataError
  else
    match encodeStr (strDumperEncoding conn) obj with
    | some bs => .ok bs
    | none => .error .codecError

/-- Model of `StrBinaryDumper.dump` (binary format): encode without the NUL check. -/
def StrBinaryDumper.dump (conn : Option String) (obj : Str) :
    Except DumpError Bytes :=
  match encodeStr (strDumperEncoding conn) obj with
  | some bs => .ok bs
  | none => .error .codecError

/-- What a loader returns: a decoded string, or — in the no-encoding
configuration — the raw bytes unchanged. -/
inductive Loaded where
  | str : Str → Loaded
  | bytes : Bytes → Loaded
deriving DecidableEq, Repr

/-- Loader-side effective encoding (`TextLoader.__init__`): the empty
string is the "return raw bytes" sentinel installed for `ascii`. -/
def textLoaderEncoding (conn : Option String) : String :=
  match conn with
  | none => "utf-8"
  | some enc => if enc ≠ "ascii" then enc else ""

/-- Model of `bytes.decode(encoding)` (strict UTF-8). -/
def decodeStr (enc : String) (b : Bytes) : Option Str :=
  if enc = "utf-8" then utf8Decode b else none

/-- Model of `TextLoader.load`: decode when an encoding is configured, else return
the bytes unchanged; `.error` is the decoding exception. -/
def TextLoader.load (conn : Option String) (data : Bytes) :
    Except Unit Loaded :=
  if textLoaderEncoding conn ≠ "" then
    match decodeStr (textLoaderEncoding conn) data with
    | some s => .ok (.str s)
    | none => .error ()
  else .ok (.bytes data)

/-- The subclass `TextBinaryLoader` (binary format) inherits `load` unchanged. -/
def TextBinaryLoader.load (conn : Option String) (data : Bytes) :
    Except Unit Loaded := TextLoader.load conn data

/-! ## Claim C8 -/

/-- C8: for every well-formed string containing a NUL code point, the
text-format dumper raises `DataError`, the binary-format dumper succeeds
with the string's UTF-8 bytes, and the matching binary loader decodes
those bytes back to exactly the original string. -/
theorem nul_text_error_binary_roundtrip (s : Str) (hv : ValidStr s)
    (hnul : 0 ∈ s) :
    StrDumper.dump none s = .error DumpError.dataError ∧
    StrBinaryDumper.dump none s = .ok (utf8Encode s) ∧
    TextBinaryLoader.load none (utf8Encode s) = .ok (Loaded.str s) := by
  refine ⟨?_, ?_, ?_⟩
  · simp [StrDumper.dump, hnul]
  · simp [StrBinaryDumper.dump, strDumperEncoding, encodeStr]
  · simp only [TextBinaryLoader.load, TextLoader.load, textLoaderEncoding,
      decodeStr]
    simp only [reduceIte]
    rw [if_pos (by decide : ("utf-8" : String) ≠ ""), utf8Decode_encode s hv]

/-- C8 witness: the string `"a\x00é"` (code points `[97, 0, 233]`). -/
theorem nul_text_error_binary_roundtrip_witness :
    StrDumper.dump none [97, 0, 233] = .error DumpError.dataError ∧
    StrBinaryDumper.dump none [97, 0, 233] = .ok (utf8Encode [97, 0, 233]) ∧
    TextBinaryLoader.load none (utf8Encode [97, 0, 233]) =
      .ok (Loaded.str [97, 0, 233]) :=
  nul_text_error_binary_roundtrip [97, 0, 233] (by decide) (by decide)

/-! ## Claim C10 -/

/-- C10: when the connection's client encoding is the `ascii` sentinel the
dumpers keep the default `utf-8`, so dumping any well-formed string — in
particular a non-ASCII one — succeeds and yields its UTF-8 bytes (the
text dumper additionally requires the absence of NUL); asymmetrically,
the loader's effective encoding becomes the raw-bytes sentinel and it
returns its input bytes undecoded. -/
theorem ascii_sentinel_keeps_utf8 (s : Str) (b : Bytes) (hnul : 0 ∉ s) :
    strDumperEncoding (some "ascii") = "utf-8" ∧
    StrDumper.dump (some "ascii") s = .ok (utf8Encode s) ∧
    StrBinaryDumper.dump (some "ascii") s = .ok (utf8Encode s) ∧
    textLoaderEncoding (some "ascii") = "" ∧
    TextLoader.load (some "ascii") b = .ok (Loaded.bytes b) := by
  refine ⟨by decide, ?_, ?_, by decide, ?_⟩
  · simp [StrDumper.dump, hnul, strDumperEncoding, encodeStr]
  · simp [StrBinaryDumper.dump, strDumperEncoding, encodeStr]
  · simp [TextLoader.load, textLoaderEncoding]

/-- C10 witness: the non-ASCII string `"é"` (`[233]`) and raw bytes
`[255, 0]` that are not valid UTF-8. -/
theorem ascii_sentinel_keeps_utf8_witness :
    strDumperEncoding (some "ascii") = "utf-8" ∧
    StrDumper.dump (some "ascii") [233] = .ok (utf8Encode [233]) ∧
    StrBinaryDumper.dump (some "ascii") [233] = .ok (utf8Encode [233]) ∧
    textLoaderEncoding (some "ascii") = "" ∧
    TextLoader.load (some "ascii") [255, 0] = .ok (Loaded.bytes [255, 0]) :=
  ascii_sentinel_keeps_utf8 [233] [255, 0] (by decide)
